import Mathlib

/-!
Verification of the prediction-market paper-trading engine
(api/bots.py and api/scanner.py of the repository).

Shallow embedding conventions:
* Python strings are modelled as `List Char`; `str.lower` is modelled
  per-character for the ASCII range (characters outside a-z, 0-9 and
  whitespace are removed by the normalization pipeline in both the source
  and the model, so the ASCII model agrees with the source on every
  character the pipeline can keep).
* Python floats are modelled as `ℚ`; `round(x, n)` is round-half-to-even
  on rationals, matching Python's decimal rounding away from binary
  representation noise.
* A missing dictionary key, or a value `safe_float` turns into its
  default, is modelled with `Option`.
-/

namespace BotArena

/-- Python regex class `\s`: space, tab, newline, CR, VT, FF. -/
def isWsB (c : Char) : Bool :=
  c.toNat = 32 || c.toNat = 9 || c.toNat = 10 || c.toNat = 13 ||
  c.toNat = 11 || c.toNat = 12

/-- ASCII model of Python str.lower applied to one character. -/
def pyLower (c : Char) : Char :=
  if 65 ≤ c.toNat ∧ c.toNat ≤ 90 then Char.ofNat (c.toNat + 32) else c

/-- Characters kept by re.sub(r'[^a-z0-9\s]', '', t) in normalize_title. -/
def isAllowed (c : Char) : Bool :=
  (97 ≤ c.toNat && c.toNat ≤ 122) || (48 ≤ c.toNat && c.toNat ≤ 57) || isWsB c

/-- Python str.strip: drop leading whitespace, then trailing whitespace
(via the double reverse). -/
def pyStrip (s : List Char) : List Char :=
  (((s.dropWhile isWsB).reverse).dropWhile isWsB).reverse

/-- State machine for re.sub(r'\s+', ' ', t): the Bool records whether the
previous character was whitespace (so further whitespace is swallowed). -/
def collapseWsAux : Bool → List Char → List Char
  | _, [] => []
  | afterWs, c :: rest =>
    if isWsB c then
      if afterWs then collapseWsAux true rest
      else ' ' :: collapseWsAux true rest
    else c :: collapseWsAux false rest

/-- re.sub(r'\s+', ' ', t). -/
def collapseWs (s : List Char) : List Char := collapseWsAux false s

/-- Worker for Python str.replace(pat, ""): the counter holds how many
characters of a match found earlier still have to be dropped, so matches
are non-overlapping and scanned left to right, as in CPython. -/
def replGo (pat : List Char) : ℕ → List Char → List Char
  | _ + 1, [] => []
  | k + 1, _ :: rest => replGo pat k rest
  | 0, [] => []
  | 0, c :: rest =>
    if pat ≠ [] ∧ pat.isPrefixOf (c :: rest) then replGo pat (pat.length - 1) rest
    else c :: replGo pat 0 rest

/-- Python t.replace(pat, "") for a non-empty pattern. -/
def replaceAll (pat s : List Char) : List Char := replGo pat 0 s

/-- Does pat occur as a contiguous substring of s? -/
def hasSub (pat : List Char) : List Char → Bool
  | [] => pat.isPrefixOf []
  | c :: rest => pat.isPrefixOf (c :: rest) || hasSub pat rest

/-- Does s contain two adjacent space characters? -/
def hasDbl : List Char → Bool
  | a :: b :: rest => (a == ' ' && b == ' ') || hasDbl (b :: rest)
  | _ => false

/-- The noise substrings stripped by normalize_title, in source order. -/
def noiseTokens : List (List Char) :=
  ["will ", "what ", "who ", "which ", "when ", "how ", "the ",
   "by end of ", "before ", "in 2026", "in 2025", "in 2027"].map String.toList

/-- api/bots.py lines 362-368 and api/scanner.py lines 239-245:
lower + strip, drop characters outside [a-z0-9\s], collapse whitespace
runs to single spaces, delete each noise substring in order, strip. -/
def normalize_title (t : List Char) : List Char :=
  pyStrip (noiseTokens.foldl (fun acc pat => replaceAll pat acc)
    (collapseWs ((pyStrip (t.map pyLower)).filter isAllowed)))

/-- Python round-half-to-even of a rational to an integer. -/
def pyRound (y : ℚ) : ℤ :=
  if Int.fract y = 1/2 then (if 2 ∣ ⌊y⌋ then ⌊y⌋ else ⌊y⌋ + 1) else round y

/-- Python round(x, 2). -/
def round2 (q : ℚ) : ℚ := (pyRound (q * 100) : ℚ) / 100

/-- Python round(x, 1). -/
def round1 (q : ℚ) : ℚ := (pyRound (q * 10) : ℚ) / 10

/-! ### Trading constants (api/bots.py lines 381-385) -/

def MIN_TRADEABLE_PRICE : ℚ := 5
def MAX_TRADEABLE_PRICE : ℚ := 95
def MAX_BET_PER_TRADE : ℚ := 800
def SLIPPAGE_PCT : ℚ := 2
def FEES_PCT : ℚ := 1
def INITIAL_BANKROLL : ℚ := 10000

/-! ### Kalshi market-price ingestion

A raw Kalshi market record. Each field holds the `safe_float` of the JSON
value: `none` models a missing key, an explicit null, or a non-numeric
string. -/

structure KalshiRaw where
  yes_price : Option ℚ
  yes_bid : Option ℚ
  yes_ask : Option ℚ
  last_price : Option ℚ
  yes_price_dollar : Option ℚ
  last_price_dollar : Option ℚ
deriving DecidableEq, Repr

/-- api/scanner.py lines 120-129: values in (0, 1] are treated as dollars
and scaled to cents. -/
def _normalize_to_cents (v : Option ℚ) : Option ℚ :=
  match v with
  | none => none
  | some x => if 0 < x ∧ x ≤ 1 then some (x * 100) else some x

/-- api/scanner.py lines 173-179 step 6: explicit dollar-denominated
fields, tried in order yes_price_dollar then last_price_dollar. -/
def kalshiDollarStep (m : KalshiRaw) : Option ℚ :=
  match m.yes_price_dollar with
  | some raw =>
    if 0 < raw ∧ 0 < raw * 100 ∧ raw * 100 ≤ 100 then some (raw * 100)
    else
      match m.last_price_dollar with
      | some raw2 =>
        if 0 < raw2 ∧ 0 < raw2 * 100 ∧ raw2 * 100 ≤ 100 then some (raw2 * 100) else none
      | none => none
  | none =>
    match m.last_price_dollar with
    | some raw2 =>
      if 0 < raw2 ∧ 0 < raw2 * 100 ∧ raw2 * 100 ≤ 100 then some (raw2 * 100) else none
    | none => none

/-- api/scanner.py lines 168-171 step 5: last_price fallback. -/
def kalshiLastStep (m : KalshiRaw) : Option ℚ :=
  match _normalize_to_cents m.last_price with
  | some l => if 0 < l ∧ l ≤ 100 then some l else kalshiDollarStep m
  | none => kalshiDollarStep m

/-- api/scanner.py lines 151-166 steps 2-4: bid/ask midpoint with
one-sided fallback (ask alone, then bid alone). -/
def kalshiBidAskStep (m : KalshiRaw) : Option ℚ :=
  match _normalize_to_cents m.yes_bid, _normalize_to_cents m.yes_ask with
  | some b, some a =>
    if 0 < b ∧ 0 < a then
      (if 0 < (b + a) / 2 ∧ (b + a) / 2 ≤ 100 then some ((b + a) / 2) else kalshiLastStep m)
    else if 0 < a then
      (if 0 < a ∧ a ≤ 100 then some a else kalshiLastStep m)
    else if 0 < b then
      (if 0 < b ∧ b ≤ 100 then some b else kalshiLastStep m)
    else kalshiLastStep m
  | none, some a =>
    if 0 < a then (if 0 < a ∧ a ≤ 100 then some a else kalshiLastStep m)
    else kalshiLastStep m
  | some b, none =>
    if 0 < b then (if 0 < b ∧ b ≤ 100 then some b else kalshiLastStep m)
    else kalshiLastStep m
  | none, none => kalshiLastStep m

/-- api/scanner.py lines 131-181 extract_kalshi_yes_pct: the full
fallback chain, starting with yes_price. -/
def extract_kalshi_yes_pct (m : KalshiRaw) : Option ℚ :=
  match _normalize_to_cents m.yes_price with
  | some yp =>
    if 0 < yp then (if 100 < yp then none else some yp)
    else kalshiBidAskStep m
  | none => kalshiBidAskStep m

/-- api/bots.py lines 269-275, inside its own fetch_kalshi_markets:
yes_price verbatim if parseable, else the bid/ask midpoint, but only when
BOTH sides are non-zero (Python truthiness of floats), else 0. -/
def bots_kalshi_yes_pct (m : KalshiRaw) : ℚ :=
  match m.yes_price with
  | some v => v
  | none =>
    let yes_bid := m.yes_bid.getD 0
    let yes_ask := m.yes_ask.getD 0
    if yes_bid ≠ 0 ∧ yes_ask ≠ 0 then (yes_bid + yes_ask) / 2 else 0

/-- api/bots.py line 276: a market is kept only if its resolved price is
strictly positive. -/
def bots_kalshi_included (m : KalshiRaw) : Bool :=
  decide (0 < bots_kalshi_yes_pct m)

/-! ### Kelly position sizing (api/bots.py lines 390-409) -/

inductive Direction
  | BUY_YES
  | BUY_NO
  | ARB
deriving DecidableEq, Repr

/-- Full-Kelly fraction for the YES side: b = 1/price - 1,
f = (b p - (1 - p)) / b. -/
def f_yes_frac (p m : ℚ) : ℚ :=
  let b := 1 / m - 1
  (b * p - (1 - p)) / b

/-- Full-Kelly fraction for the NO side, on price 1 - m and probability
1 - p. -/
def f_no_frac (p m : ℚ) : ℚ :=
  let no_price := 1 - m
  let no_prob := 1 - p
  let b := 1 / no_price - 1
  (b * no_prob - (1 - no_prob)) / b

/-- api/bots.py kelly_size: guard band, side selection (ties to YES),
clamping to min(bet, 15% of bankroll, MAX_BET_PER_TRADE), fee deduction,
rounding to cents. -/
def kelly_size (estimated_prob market_price bankroll kelly_fraction : ℚ) :
    ℚ × Option Direction :=
  if estimated_prob ≤ 1/100 ∨ 99/100 ≤ estimated_prob ∨
     market_price ≤ 1/100 ∨ 99/100 ≤ market_price then (0, none)
  else if 0 < f_yes_frac estimated_prob market_price ∧
          f_no_frac estimated_prob market_price ≤
            f_yes_frac estimated_prob market_price then
    (round2 (min (bankroll * f_yes_frac estimated_prob market_price * kelly_fraction)
        (min (bankroll * (15/100)) MAX_BET_PER_TRADE) * (1 - FEES_PCT / 100)),
     some Direction.BUY_YES)
  else if 0 < f_no_frac estimated_prob market_price then
    (round2 (min (bankroll * f_no_frac estimated_prob market_price * kelly_fraction)
        (min (bankroll * (15/100)) MAX_BET_PER_TRADE) * (1 - FEES_PCT / 100)),
     some Direction.BUY_NO)
  else (0, none)

/-! ### Engine data model -/

/-- A market snapshot as produced by the fetchers in api/bots.py. -/
structure Market where
  platform : List Char
  title : List Char
  yes_pct : ℚ
  volume : ℚ
  volume_24hr : ℚ
  liquidity : ℚ
  category : List Char
  url : List Char
  active : Bool
  closed : Bool
deriving DecidableEq, Repr

/-- A trade proposal as emitted by the strategy functions. `arb_detail`
abstracts the arbitrage detail dict to its spread; only the arbitrage
strategy sets it. -/
structure Proposal where
  market : List Char
  platform : List Char
  url : List Char
  category : List Char
  direction : Direction
  market_price : ℚ
  estimated_prob : ℚ
  edge_pp : ℚ
  bet_amount : ℚ
  kelly_fraction : ℚ
  arb_detail : Option ℚ
deriving DecidableEq, Repr

/-- An open position (api/bots.py lines 872-878). `arb_detail` holds the
spread of an ARB position when present; positions appended by the engine
never set it, but positions loaded from storage may carry it. -/
structure Position where
  trade_id : List Char
  market : List Char
  direction : Direction
  entry_price : ℚ
  current_price : ℚ
  bet_amount : ℚ
  timestamp : ℕ
  platform : List Char
  url : List Char
  arb_detail : Option ℚ
deriving DecidableEq, Repr

/-- A persisted trade record (api/bots.py lines 854-868). -/
structure TradeRec where
  id : List Char
  bot_id : List Char
  timestamp : ℕ
  market : List Char
  platform : List Char
  url : List Char
  category : List Char
  direction : Direction
  entry_price : ℚ
  estimated_prob : ℚ
  edge_pp : ℚ
  bet_amount : ℚ
  kelly_fraction : ℚ
  status : List Char
  pnl : ℚ
  arb_detail : Option ℚ
deriving DecidableEq, Repr

/-- Per-agent persisted state. -/
structure BotState where
  bankroll : ℚ
  total_trades : ℕ
  winning_trades : ℕ
  total_pnl : ℚ
  peak_bankroll : ℚ
  positions : List Position
  equity_curve : List (ℕ × ℚ)
deriving DecidableEq, Repr

/-- The slice of a BOTS entry the engine reads: its id, strategy tag and
the risk parameters used by the admission loop and the arbitrage
strategy. -/
structure BotProfile where
  id : List Char
  strategy : List Char
  max_positions : ℕ
  kelly_fraction : ℚ
  min_spread : ℚ
deriving DecidableEq, Repr

/-- api/bots.py lines 825-829: the default state for an unseen agent id. -/
def freshState (now : ℕ) : BotState :=
  { bankroll := INITIAL_BANKROLL, total_trades := 0, winning_trades := 0,
    total_pnl := 0, peak_bankroll := INITIAL_BANKROLL, positions := [],
    equity_curve := [(now, INITIAL_BANKROLL)] }

/-- api/bots.py lines 428-434 apply_slippage: widen the entry price
against the agent. -/
def apply_slippage (market_price : ℚ) (direction : Direction) : ℚ :=
  match direction with
  | .BUY_YES => min (market_price * (1 + SLIPPAGE_PCT / 100)) 99
  | .BUY_NO => max (market_price * (1 - SLIPPAGE_PCT / 100)) 1
  | .ARB => market_price

/-- Stand-in for the md5 digest used as a trade id at line 855; the digest
input string itself serves as the id in the model. -/
def tradeIdOf (botId mkt : List Char) (now : ℕ) : List Char :=
  botId ++ ':' :: mkt ++ ':' :: (toString now).toList

/-- The trade record appended for an executed proposal
(api/bots.py lines 854-868). -/
def mkTradeRec (botId : List Char) (now : ℕ) (t : Proposal) (slipped : ℚ) : TradeRec :=
  { id := tradeIdOf botId t.market now, bot_id := botId, timestamp := now,
    market := t.market, platform := t.platform, url := t.url,
    category := t.category, direction := t.direction,
    entry_price := round2 slipped, estimated_prob := t.estimated_prob,
    edge_pp := t.edge_pp, bet_amount := t.bet_amount,
    kelly_fraction := t.kelly_fraction, status := "OPEN".toList, pnl := 0,
    arb_detail := t.arb_detail }

/-- The position appended for an executed proposal
(api/bots.py lines 872-878). -/
def mkPosition (botId : List Char) (now : ℕ) (t : Proposal) (slipped : ℚ) : Position :=
  { trade_id := tradeIdOf botId t.market now, market := t.market,
    direction := t.direction, entry_price := round2 slipped,
    current_price := t.market_price, bet_amount := t.bet_amount,
    timestamp := now, platform := t.platform, url := t.url,
    arb_detail := none }

/-! ### ExecutionCoordinator: the trade-admission loop
(api/bots.py lines 840-878) -/

/-- One step of the admission loop. `existingKeys` is the set of
normalized market keys computed once, from the positions open when the
loop starts; it is never extended inside the loop. A key match skips the
proposal (continue); reaching the cap ends the loop (break). The cap test
is current_positions + len(executed_trades) >= max_pos, where
current_positions is re-read from the growing position list. -/
def execGo (botId : List Char) (now : ℕ) (maxPos : ℕ)
    (existingKeys : List (List Char)) :
    List Proposal → BotState → List TradeRec → BotState × List TradeRec
  | [], st, executed => (st, executed)
  | t :: rest, st, executed =>
    if normalize_title t.market ∈ existingKeys then
      execGo botId now maxPos existingKeys rest st executed
    else if maxPos ≤ st.positions.length + executed.length then
      (st, executed)
    else
      execGo botId now maxPos existingKeys rest
        { st with
            bankroll := st.bankroll - t.bet_amount,
            total_trades := st.total_trades + 1,
            positions := st.positions ++
              [mkPosition botId now t (apply_slippage t.market_price t.direction)] }
        (executed ++ [mkTradeRec botId now t (apply_slippage t.market_price t.direction)])

/-- The admission step for one agent and one ranked proposal list. -/
def executeTrades (botId : List Char) (now : ℕ) (maxPos : ℕ)
    (st : BotState) (proposals : List Proposal) : BotState × List TradeRec :=
  execGo botId now maxPos
    (st.positions.map (fun p => normalize_title p.market)) proposals st []

/-! ### MarkToMarketEngine (api/bots.py lines 881-922) -/

/-- The title key used by the mark-to-market scan: strip then lower.
Note this is NOT normalize_title. -/
def stripLower (s : List Char) : List Char := (pyStrip s).map pyLower

/-- api/bots.py lines 881-892: take the first snapshot whose
stripped-lowercased title equals the position's, and re-mark only when the
move is at most 15 points. -/
def updatePositionMark (allMarkets : List Market) (pos : Position) : Position :=
  match allMarkets.find? (fun mkt => stripLower mkt.title == stripLower pos.market) with
  | some mkt =>
    if |mkt.yes_pct - pos.current_price| ≤ 15 then
      { pos with current_price := mkt.yes_pct }
    else pos
  | none => pos

/-- api/bots.py lines 896-922: unrealized P&L of one open position. -/
def position_pnl (pos : Position) : ℚ :=
  if pos.entry_price ≤ 0 ∨ 100 ≤ pos.entry_price ∨ pos.current_price ≤ 0 then 0
  else
    match pos.direction with
    | .BUY_YES =>
      let exit_price := pos.current_price * (1 - SLIPPAGE_PCT / 100)
      let shares := pos.bet_amount / (pos.entry_price / 100)
      shares * (exit_price / 100) - pos.bet_amount
    | .BUY_NO =>
      let no_entry := 100 - pos.entry_price
      let no_current := 100 - pos.current_price
      if no_entry ≤ 0 then 0
      else
        let exit_price := no_current * (1 - SLIPPAGE_PCT / 100)
        let shares := pos.bet_amount / (no_entry / 100)
        shares * (exit_price / 100) - pos.bet_amount
    | .ARB =>
      match pos.arb_detail with
      | some spread => pos.bet_amount * max (spread / 100 - 2 * FEES_PCT / 100) 0
      | none => 0

/-! ### The per-agent cycle and the engine loop
(api/bots.py lines 824-973) -/

/-- The per-agent audit entry collected into the bot_results list. -/
structure BotCycleResult where
  id : List Char
  bankroll : ℚ
  total_equity : ℚ
  total_trades : ℕ
  unrealized_pnl : ℚ
  open_positions : ℕ
  positions : List Position
  new_trades : List TradeRec
deriving DecidableEq, Repr

/-- One agent's slice of run_bot_engine: strategy output (the try/except
around the strategy call is modelled by `Except`, error meaning the
Python function raised, yielding an empty proposal list), admission,
mark-to-market, unrealized P&L, equity/peak/curve accounting and the
audit entry. -/
def processBot (now : ℕ) (allMarkets : List Market) (bot : BotProfile)
    (stratResult : Except Unit (List Proposal)) (st0 : BotState) :
    BotState × List TradeRec × BotCycleResult :=
  let proposed := match stratResult with
    | .ok l => l
    | .error _ => []
  let st1ex := executeTrades bot.id now bot.max_positions st0 proposed
  let st1 := st1ex.1
  let executed := st1ex.2
  let marked := st1.positions.map (updatePositionMark allMarkets)
  let st2 := { st1 with positions := marked }
  let unrealized := (st2.positions.map position_pnl).sum
  let current_equity :=
    st2.bankroll + (st2.positions.map (fun p => p.bet_amount)).sum + unrealized
  let peak := max st2.peak_bankroll current_equity
  let curve0 := st2.equity_curve ++ [(now, round2 current_equity)]
  let curve := if 168 < curve0.length then curve0.drop (curve0.length - 168) else curve0
  let st3 := { st2 with peak_bankroll := peak, equity_curve := curve }
  (st3, executed,
    { id := bot.id, bankroll := round2 st3.bankroll,
      total_equity := round2 current_equity, total_trades := st3.total_trades,
      unrealized_pnl := round2 unrealized,
      open_positions := st3.positions.length, positions := st3.positions,
      new_trades := executed })

/-- The main loop of run_bot_engine over BOTS. The strategy table is a
parameter: `strat bot = none` models a strategy tag absent from
STRATEGY_MAP (the bot is skipped), and `strat bot = some f` gives the
strategy function, `f` returning `Except.error` when the Python function
raises. The state is the persisted agent-id-keyed mapping. -/
def runBots (now : ℕ) (allMarkets : List Market)
    (strat : BotProfile → Option (BotState → Except Unit (List Proposal))) :
    List BotProfile → (List Char → Option BotState) →
    (List Char → Option BotState) × List BotCycleResult × List TradeRec
  | [], state => (state, [], [])
  | bot :: rest, state =>
    match strat bot with
    | none => runBots now allMarkets strat rest state
    | some f =>
      let st0 := (state bot.id).getD (freshState now)
      let out := processBot now allMarkets bot (f st0) st0
      let state' := fun i => if i = bot.id then some out.1 else state i
      let tail := runBots now allMarkets strat rest state'
      (tail.1, out.2.2 :: tail.2.1, out.2.1 ++ tail.2.2)

/-- The result object of run_bot_engine (api/bots.py lines 963-973),
restricted to the engine-owned fields. The function is total: the run
always completes and returns this object. -/
structure EngineResult where
  stateOut : List Char → Option BotState
  bots : List BotCycleResult
  newTrades : List TradeRec
  totalMarkets : ℕ

/-- run_bot_engine, with market fetching and persistence (external
collaborators) passed in as values. -/
def run_bot_engine (now : ℕ) (poly_markets kalshi_markets : List Market)
    (strat : BotProfile → Option (BotState → Except Unit (List Proposal)))
    (bots : List BotProfile) (state0 : List Char → Option BotState) :
    EngineResult :=
  let all_markets := poly_markets ++ kalshi_markets
  let out := runBots now all_markets strat bots state0
  { stateOut := out.1, bots := out.2.1, newTrades := out.2.2,
    totalMarkets := all_markets.length }

/-! ### Market filters and cross-platform matching -/

/-- api/bots.py lines 419-423: the esports/irrelevant-title deny list. -/
def esport_keywords : List (List Char) :=
  ["lol:", "dota", "csgo", "cs2", "valorant", "overwatch", "league of legends",
   "game winner", "map winner", "round winner", "esport", "fearx", "t1 vs",
   "gen.g", "cloud9", "fnatic vs", "navi vs", "g2 vs", "100 thieves",
   "total kills", "in game 1", "in game 2", "in game 3", "in game 4", "in game 5",
   "first blood", "first tower", "first baron", "dragon", "rift herald"].map String.toList

/-- api/bots.py lines 414-426 is_tradeable: price band [5, 95] and the
esports deny list applied to the lowercased title. -/
def is_tradeable (mkt : Market) : Bool :=
  if mkt.yes_pct < MIN_TRADEABLE_PRICE ∨ MAX_TRADEABLE_PRICE < mkt.yes_pct then false
  else !(esport_keywords.any (fun kw => hasSub kw (mkt.title.map pyLower)))

/-- Python str.split() on whitespace runs, dropping empty tokens. The
accumulator collects the current word in reverse. -/
def splitWsGo (cur : List Char) : List Char → List (List Char)
  | [] => if cur = [] then [] else [cur.reverse]
  | c :: rest =>
    if isWsB c then
      (if cur = [] then splitWsGo [] rest else cur.reverse :: splitWsGo [] rest)
    else splitWsGo (c :: cur) rest

def splitWs (s : List Char) : List (List Char) := splitWsGo [] s

/-- api/bots.py lines 370-376 keyword_overlap: intersection size of the
word sets over the smaller set size. -/
def keyword_overlap (t1 t2 : List Char) : ℚ :=
  let words1 := (splitWs t1).dedup
  let words2 := (splitWs t2).dedup
  if words1 = [] ∨ words2 = [] then 0
  else ((words1.filter (fun w => decide (w ∈ words2))).length : ℚ) /
       ((min words1.length words2.length : ℕ) : ℚ)

/-! ### CrossPlatformArbitrage strategy (api/bots.py lines 481-533) -/

/-- The body of the inner loop over Kalshi markets, for one
Polymarket/Kalshi pair: returns the proposal appended for this pair, if
any. -/
def arbPair (params : BotProfile) (bankroll : ℚ) (pm : Market)
    (pmNorm : List Char) (km : Market) : Option Proposal :=
  if !(is_tradeable km) then none
  else
    let kmNorm := normalize_title km.title
    if keyword_overlap pmNorm kmNorm < 1/2 then none
    else
      let gap := pm.yes_pct - km.yes_pct
      if |gap| < params.min_spread then none
      else
        let buy_url := if 0 < gap then km.url else pm.url
        let spread_pct := |gap| / 100
        let bet0 := bankroll * spread_pct * params.kelly_fraction
        let bet := min bet0 (bankroll * (20/100))
        if bet < 10 then none
        else some
          { market := pm.title,
            platform := (if 0 < gap then "Kalshi → Polymarket"
                         else "Polymarket → Kalshi").toList,
            url := buy_url, category := pm.category, direction := .ARB,
            market_price := pm.yes_pct, estimated_prob := km.yes_pct,
            edge_pp := round1 |gap|, bet_amount := round2 bet,
            kelly_fraction := params.kelly_fraction,
            arb_detail := some (round1 |gap|) }

/-- Stable insertion into a list sorted by descending edge_pp; the element
being inserted precedes equals, matching Python's stable list.sort with
key -edge_pp. -/
def insertDescEdge (t : Proposal) : List Proposal → List Proposal
  | [] => [t]
  | u :: us => if u.edge_pp ≤ t.edge_pp then t :: u :: us else u :: insertDescEdge t us

/-- Stable sort by descending edge_pp, modelling trades.sort(key=-edge). -/
def sortByEdgeDesc : List Proposal → List Proposal
  | [] => []
  | t :: rest => insertDescEdge t (sortByEdgeDesc rest)

/-- api/bots.py lines 526-532: keep the first (highest-edge) proposal per
normalized market key. -/
def dedupByKey (seen : List (List Char)) : List Proposal → List Proposal
  | [] => []
  | t :: rest =>
    let key := normalize_title t.market
    if key ∈ seen then dedupByKey seen rest
    else t :: dedupByKey (key :: seen) rest

/-- api/bots.py strategy_cross_platform_arb: all tradeable open
Polymarket/Kalshi pairs with keyword overlap ≥ 0.5 and price gap ≥
min_spread, sized on the spread, sorted by edge, deduplicated, truncated
to max_positions. -/
def strategy_cross_platform_arb (params : BotProfile)
    (poly_markets kalshi_markets : List Market) (st : BotState) : List Proposal :=
  let trades := poly_markets.foldr
    (fun pm acc =>
      if pm.closed || !pm.active then acc
      else if !(is_tradeable pm) then acc
      else (kalshi_markets.filterMap
              (arbPair params st.bankroll pm (normalize_title pm.title))) ++ acc)
    []
  (dedupByKey [] (sortByEdgeDesc trades)).take params.max_positions

/-! ### CycleRecorder, modelled from the spec

The cycle/hold-reason audit trail is exercised by the repository's tests
(tests/test_issue2_cycles.py patches load_cycles and save_cycles and
reads latest_cycle / top_hold_reasons), but those functions and the
record construction are not part of the provided api/bots.py. The
definitions below are therefore modelled from the spec, sections 4.3 and
4.5. -/

inductive CycleDecision
  | TRADE
  | HOLD
deriving DecidableEq, Repr

inductive HoldReason
  | DEPENDENCY_DATA_UNAVAILABLE
  | AT_MAX_POSITIONS
  | NO_QUALIFYING_EDGE
deriving DecidableEq, Repr

/-- The spec's ranking: DEPENDENCY_DATA_UNAVAILABLE > AT_MAX_POSITIONS >
NO_QUALIFYING_EDGE (lower rank = reported first). -/
def reasonRank : HoldReason → ℕ
  | .DEPENDENCY_DATA_UNAVAILABLE => 0
  | .AT_MAX_POSITIONS => 1
  | .NO_QUALIFYING_EDGE => 2

structure CycleRecord where
  decision : CycleDecision
  hold_reasons : List HoldReason
deriving DecidableEq, Repr

/-- Which of the three rejection codes fired this cycle. -/
def reasonFired (dep atMax noEdge : Bool) : HoldReason → Bool
  | .DEPENDENCY_DATA_UNAVAILABLE => dep
  | .AT_MAX_POSITIONS => atMax
  | .NO_QUALIFYING_EDGE => noEdge

/-- Modelled from the spec: section 4.5 CycleRecorder. Decision is TRADE
iff at least one proposal was admitted this cycle; a HOLD cycle reports
the distinct rejection codes that actually fired, in rank order, each at
most once; a TRADE cycle reports an empty reason list. -/
def cycle_record (admitted : ℕ) (dep atMax noEdge : Bool) : CycleRecord :=
  if 0 < admitted then { decision := .TRADE, hold_reasons := [] }
  else
    { decision := .HOLD,
      hold_reasons :=
        (if dep then [HoldReason.DEPENDENCY_DATA_UNAVAILABLE] else []) ++
        (if atMax then [HoldReason.AT_MAX_POSITIONS] else []) ++
        (if noEdge then [HoldReason.NO_QUALIFYING_EDGE] else []) }

/-- Modelled from the spec: section 4.3 — an arbitrage agent's required
upstream data dependency (the other venue's snapshots) is absent when a
venue's snapshot list is empty this cycle. -/
def dependency_unavailable (strategy : List Char)
    (poly_markets kalshi_markets : List Market) : Bool :=
  strategy == "cross_platform_arb".toList &&
    (poly_markets.isEmpty || kalshi_markets.isEmpty)

/-! ## Rounding lemmas -/

lemma pyRound_le (y : ℚ) : (pyRound y : ℚ) ≤ y + 1/2 := by
  unfold pyRound
  split_ifs with h1 h2
  · have hf : y - ⌊y⌋ = 1/2 := by rwa [Int.fract] at h1
    have := Int.floor_le y
    linarith
  · have hf : y - ⌊y⌋ = 1/2 := by rwa [Int.fract] at h1
    push_cast
    linarith
  · have h := abs_sub_round y
    rw [abs_le] at h
    linarith [h.1]

lemma pyRound_ge (y : ℚ) : y - 1/2 ≤ (pyRound y : ℚ) := by
  unfold pyRound
  split_ifs with h1 h2
  · have hf : y - ⌊y⌋ = 1/2 := by rwa [Int.fract] at h1
    linarith
  · have hf : y - ⌊y⌋ = 1/2 := by rwa [Int.fract] at h1
    push_cast
    linarith
  · have h := abs_sub_round y
    rw [abs_le] at h
    linarith [h.2]

lemma round2_le (q : ℚ) : round2 q ≤ q + 1/200 := by
  unfold round2
  have h := pyRound_le (q * 100)
  linarith

lemma round2_nonneg (q : ℚ) (h : 0 ≤ q) : 0 ≤ round2 q := by
  unfold round2
  have h1 : (-1 : ℚ) < (pyRound (q * 100) : ℚ) := by
    have := pyRound_ge (q * 100)
    linarith
  have h2 : (0 : ℤ) ≤ pyRound (q * 100) := by
    have : (-1 : ℤ) < pyRound (q * 100) := by exact_mod_cast h1
    omega
  have h3 : (0 : ℚ) ≤ (pyRound (q * 100) : ℚ) := by exact_mod_cast h2
  linarith

/-! ## C1: one-sided Kalshi order books -/

/-- C1. For a one-sided book with yes_bid = 0 and yes_ask = 55 (yes_price
absent), the scanner's extractor resolves 55 and keeps the market, but
the bot engine's own Kalshi fetcher computes (bid+ask)/2 only when both
sides are non-zero, so it resolves 0 and drops the market. This
contradicts the claim (and the repository's own
test_kalshi_parser.TestBotsKalshiIntegration, which requires bots.py to
include the bid=0/ask=72 fixture): the code of api/bots.py is the bug. -/
theorem kalshi_one_sided_book_divergence :
    extract_kalshi_yes_pct
      { yes_price := none, yes_bid := some 0, yes_ask := some 55,
        last_price := none, yes_price_dollar := none, last_price_dollar := none }
      = some 55 ∧
    bots_kalshi_yes_pct
      { yes_price := none, yes_bid := some 0, yes_ask := some 55,
        last_price := none, yes_price_dollar := none, last_price_dollar := none }
      = 0 ∧
    bots_kalshi_included
      { yes_price := none, yes_bid := some 0, yes_ask := some 55,
        last_price := none, yes_price_dollar := none, last_price_dollar := none }
      = false ∧
    extract_kalshi_yes_pct
      { yes_price := none, yes_bid := none, yes_ask := some 55,
        last_price := none, yes_price_dollar := none, last_price_dollar := none }
      = some 55 ∧
    bots_kalshi_included
      { yes_price := none, yes_bid := none, yes_ask := some 55,
        last_price := none, yes_price_dollar := none, last_price_dollar := none }
      = false := by
  refine ⟨by decide, by decide, by decide, by decide, by decide⟩

/-! ## C5: Kelly sizing bounds -/

/-- The stake produced in either taken branch of kelly_size: clamp to
min(bet, 15% of bankroll, the absolute ceiling), deduct the fee, round. -/
lemma kelly_clamp_bounds (B f k : ℚ) (hB : 0 ≤ B) (hk : 0 < k) (hf : 0 < f) :
    0 ≤ round2 (min (B * f * k) (min (B * (15/100)) MAX_BET_PER_TRADE) *
        (1 - FEES_PCT / 100)) ∧
    round2 (min (B * f * k) (min (B * (15/100)) MAX_BET_PER_TRADE) *
        (1 - FEES_PCT / 100)) ≤ MAX_BET_PER_TRADE ∧
    round2 (min (B * f * k) (min (B * (15/100)) MAX_BET_PER_TRADE) *
        (1 - FEES_PCT / 100)) ≤ B * (15/100) + 1/200 ∧
    (1/2 ≤ B * (15/100) →
      round2 (min (B * f * k) (min (B * (15/100)) MAX_BET_PER_TRADE) *
          (1 - FEES_PCT / 100)) ≤ B * (15/100)) := by
  have hC : (0 : ℚ) ≤ B * (15/100) := by positivity
  have h800 : min (B * (15/100)) MAX_BET_PER_TRADE ≤ MAX_BET_PER_TRADE :=
    min_le_right _ _
  have hCle : min (B * (15/100)) MAX_BET_PER_TRADE ≤ B * (15/100) :=
    min_le_left _ _
  have hmv : (0 : ℚ) ≤ min (B * f * k) (min (B * (15/100)) MAX_BET_PER_TRADE) := by
    refine le_min (by positivity) (le_min hC (by rw [MAX_BET_PER_TRADE]; norm_num))
  have hm2 : min (B * f * k) (min (B * (15/100)) MAX_BET_PER_TRADE) ≤
      min (B * (15/100)) MAX_BET_PER_TRADE := min_le_right _ _
  have hfee : (1 - FEES_PCT / 100 : ℚ) = 99/100 := by rw [FEES_PCT]; norm_num
  rw [hfee]
  set m2 := min (B * f * k) (min (B * (15/100)) MAX_BET_PER_TRADE) with hm2def
  have hb3 : 0 ≤ m2 * (99/100) := by positivity
  have hmax : m2 ≤ MAX_BET_PER_TRADE := le_trans hm2 h800
  have hmC : m2 ≤ B * (15/100) := le_trans hm2 hCle
  have hle := round2_le (m2 * (99/100))
  refine ⟨round2_nonneg _ hb3, ?_, ?_, ?_⟩
  · rw [MAX_BET_PER_TRADE] at hmax ⊢
    linarith
  · linarith
  · intro hhalf
    linarith

/-- C5 (amended). For every probability and price, a non-negative
bankroll and a positive Kelly fraction: the stake is non-negative, at
most the absolute ceiling MAX_BET_PER_TRADE, at most 15% of bankroll plus
half a cent, and at most 15% of bankroll outright whenever that cap is at
least half a unit (rounding the fee-reduced stake to cents can exceed the
fractional cap by under half a cent when the cap is smaller; see the
counterexample). The direction is exactly one of none, BUY_YES, BUY_NO;
the guard band returns (0, none); ties between the two positive Kelly
fractions go to YES; and when neither fraction is positive no trade is
returned. -/
theorem kelly_size_bounds (p m bankroll k : ℚ) (hB : 0 ≤ bankroll) (hk : 0 < k) :
    0 ≤ (kelly_size p m bankroll k).1 ∧
    (kelly_size p m bankroll k).1 ≤ MAX_BET_PER_TRADE ∧
    (kelly_size p m bankroll k).1 ≤ bankroll * (15/100) + 1/200 ∧
    (1/2 ≤ bankroll * (15/100) →
      (kelly_size p m bankroll k).1 ≤ bankroll * (15/100)) ∧
    ((kelly_size p m bankroll k).2 = none ∨
     (kelly_size p m bankroll k).2 = some Direction.BUY_YES ∨
     (kelly_size p m bankroll k).2 = some Direction.BUY_NO) ∧
    ((p ≤ 1/100 ∨ 99/100 ≤ p ∨ m ≤ 1/100 ∨ 99/100 ≤ m) →
      kelly_size p m bankroll k = (0, none)) ∧
    (¬(p ≤ 1/100 ∨ 99/100 ≤ p ∨ m ≤ 1/100 ∨ 99/100 ≤ m) →
      (0 < f_yes_frac p m ∧ f_no_frac p m ≤ f_yes_frac p m →
        (kelly_size p m bankroll k).2 = some Direction.BUY_YES) ∧
      (f_yes_frac p m ≤ 0 ∧ f_no_frac p m ≤ 0 →
        kelly_size p m bankroll k = (0, none))) := by
  have hC : (0 : ℚ) ≤ bankroll * (15/100) := by positivity
  by_cases hg : p ≤ 1/100 ∨ 99/100 ≤ p ∨ m ≤ 1/100 ∨ 99/100 ≤ m
  · rw [kelly_size, if_pos hg]
    refine ⟨le_refl 0, by rw [MAX_BET_PER_TRADE]; norm_num, by linarith, ?_, ?_, ?_, ?_⟩
    · intro _; linarith
    · exact Or.inl rfl
    · intro _; rfl
    · intro hng; exact absurd hg hng
  · rw [kelly_size, if_neg hg]
    by_cases hy : 0 < f_yes_frac p m ∧ f_no_frac p m ≤ f_yes_frac p m
    · rw [if_pos hy]
      have hb := kelly_clamp_bounds bankroll (f_yes_frac p m) k hB hk hy.1
      refine ⟨hb.1, hb.2.1, hb.2.2.1, hb.2.2.2, Or.inr (Or.inl rfl), ?_, ?_⟩
      · intro hgg; exact absurd hgg hg
      · intro _
        refine ⟨fun _ => rfl, ?_⟩
        intro hnn
        exact absurd hy.1 (not_lt.mpr hnn.1)
    · rw [if_neg hy]
      by_cases hn : 0 < f_no_frac p m
      · rw [if_pos hn]
        have hb := kelly_clamp_bounds bankroll (f_no_frac p m) k hB hk hn
        refine ⟨hb.1, hb.2.1, hb.2.2.1, hb.2.2.2, Or.inr (Or.inr rfl), ?_, ?_⟩
        · intro hgg; exact absurd hgg hg
        · intro _
          refine ⟨fun hyy => absurd hyy hy, ?_⟩
          intro hnn
          exact absurd hn (not_lt.mpr hnn.2)
      · rw [if_neg hn]
        refine ⟨le_refl 0, by rw [MAX_BET_PER_TRADE]; norm_num, by linarith, ?_,
          Or.inl rfl, ?_, ?_⟩
        · intro _; linarith
        · intro hgg; exact absurd hgg hg
        · intro _
          exact ⟨fun hyy => absurd hyy hy, fun _ => rfl⟩

/-- C5 counterexample. At p = 0.55, m = 0.40, bankroll = 0.66, k = 1 the
raw Kelly bet exceeds both caps, so the stake is clamped to
0.15 x 0.66 = 0.099; after the 1% fee it is 0.09801, and rounding to
cents yields 0.10, which is strictly ABOVE min(0.15 x bankroll,
MAX_BET_PER_TRADE) = 0.099. So the claimed bound
stake ≤ min(0.15 x bankroll, ceiling) fails as stated. -/
theorem kelly_size_cap_violation :
    (kelly_size (11/20) (2/5) (33/50) 1).1 = 1/10 ∧
    min ((33/50 : ℚ) * (15/100)) MAX_BET_PER_TRADE = 99/1000 ∧
    ¬((kelly_size (11/20) (2/5) (33/50) 1).1 ≤
        min ((33/50 : ℚ) * (15/100)) MAX_BET_PER_TRADE) := by
  have hval : (kelly_size (11/20) (2/5) (33/50) 1).1 = 1/10 := by
    have hg : ¬((11:ℚ)/20 ≤ 1/100 ∨ (99:ℚ)/100 ≤ 11/20 ∨
        (2:ℚ)/5 ≤ 1/100 ∨ (99:ℚ)/100 ≤ 2/5) := by norm_num
    have hfy : f_yes_frac (11/20) (2/5) = 1/4 := by norm_num [f_yes_frac]
    have hfn : f_no_frac (11/20) (2/5) = -(3/8) := by norm_num [f_no_frac]
    rw [kelly_size, if_neg hg, if_pos (by rw [hfy, hfn]; norm_num)]
    rw [hfy]
    have hmin : min ((33:ℚ)/50 * (1/4) * 1)
        (min ((33:ℚ)/50 * (15/100)) MAX_BET_PER_TRADE) = 99/1000 := by
      rw [MAX_BET_PER_TRADE]; norm_num
    rw [hmin]
    have h2 : ((99:ℚ)/1000) * (1 - FEES_PCT/100) = 9801/100000 := by
      rw [FEES_PCT]; norm_num
    rw [h2]
    have hfr : Int.fract ((9801:ℚ)/1000) ≠ 1/2 := by
      unfold Int.fract
      norm_num
    have h3 : ((9801:ℚ)/100000) * 100 = 9801/1000 := by norm_num
    rw [round2, h3, pyRound, if_neg hfr, round_eq]
    norm_num
  have hm : min ((33/50 : ℚ) * (15/100)) MAX_BET_PER_TRADE = 99/1000 := by
    rw [MAX_BET_PER_TRADE]; norm_num
  refine ⟨hval, hm, ?_⟩
  rw [hval, hm]
  norm_num

/-- C5 witness: the bounds theorem applied at p = 0.55, m = 0.40,
bankroll = 10000, k = 0.25. -/
theorem kelly_size_bounds_witness :
    0 ≤ (kelly_size (11/20) (2/5) 10000 (1/4)).1 ∧
    (kelly_size (11/20) (2/5) 10000 (1/4)).1 ≤ MAX_BET_PER_TRADE ∧
    (1/2 ≤ (10000 : ℚ) * (15/100) →
      (kelly_size (11/20) (2/5) 10000 (1/4)).1 ≤ (10000 : ℚ) * (15/100)) := by
  have h := kelly_size_bounds (11/20) (2/5) 10000 (1/4) (by norm_num) (by norm_num)
  exact ⟨h.1, h.2.1, h.2.2.2.1⟩

/-! ## The admission loop: structural lemmas -/

@[simp] lemma mkPosition_market (botId : List Char) (now : ℕ) (t : Proposal)
    (s : ℚ) : (mkPosition botId now t s).market = t.market := rfl

@[simp] lemma mkPosition_bet (botId : List Char) (now : ℕ) (t : Proposal)
    (s : ℚ) : (mkPosition botId now t s).bet_amount = t.bet_amount := rfl

@[simp] lemma mkTradeRec_market (botId : List Char) (now : ℕ) (t : Proposal)
    (s : ℚ) : (mkTradeRec botId now t s).market = t.market := rfl

@[simp] lemma mkTradeRec_bet (botId : List Char) (now : ℕ) (t : Proposal)
    (s : ℚ) : (mkTradeRec botId now t s).bet_amount = t.bet_amount := rfl

/-- Frame of the admission loop: positions and executed trades only grow
by matched pairs with equal bet amounts and fresh keys, and the bankroll
drops by exactly the newly staked total. -/
lemma execGo_frame (botId : List Char) (now maxPos : ℕ) (keys : List (List Char)) :
    ∀ (ps : List Proposal) (st : BotState) (ex : List TradeRec),
    ∃ pl tl,
      (execGo botId now maxPos keys ps st ex).1.positions = st.positions ++ pl ∧
      (execGo botId now maxPos keys ps st ex).2 = ex ++ tl ∧
      pl.map (fun p => p.bet_amount) = tl.map (fun t => t.bet_amount) ∧
      (execGo botId now maxPos keys ps st ex).1.bankroll =
        st.bankroll - (pl.map (fun p => p.bet_amount)).sum ∧
      (∀ q ∈ pl, normalize_title q.market ∉ keys) ∧
      (∀ tr ∈ tl, normalize_title tr.market ∉ keys) := by
  intro ps
  induction ps with
  | nil =>
    intro st ex
    exact ⟨[], [], by simp [execGo], by simp [execGo], rfl, by simp [execGo], by simp, by simp⟩
  | cons t rest ih =>
    intro st ex
    by_cases hk : normalize_title t.market ∈ keys
    · obtain ⟨pl, tl, h1, h2, h3, h4, h5, h6⟩ := ih st ex
      exact ⟨pl, tl, by rw [execGo, if_pos hk]; exact h1,
        by rw [execGo, if_pos hk]; exact h2, h3,
        by rw [execGo, if_pos hk]; exact h4, h5, h6⟩
    · by_cases hc : maxPos ≤ st.positions.length + ex.length
      · refine ⟨[], [], ?_, ?_, rfl, ?_, by simp, by simp⟩
        · rw [execGo, if_neg hk, if_pos hc]; simp
        · rw [execGo, if_neg hk, if_pos hc]; simp
        · rw [execGo, if_neg hk, if_pos hc]; simp
      · obtain ⟨pl, tl, h1, h2, h3, h4, h5, h6⟩ := ih
          { st with
              bankroll := st.bankroll - t.bet_amount,
              total_trades := st.total_trades + 1,
              positions := st.positions ++
                [mkPosition botId now t (apply_slippage t.market_price t.direction)] }
          (ex ++ [mkTradeRec botId now t (apply_slippage t.market_price t.direction)])
        refine ⟨mkPosition botId now t (apply_slippage t.market_price t.direction) :: pl,
          mkTradeRec botId now t (apply_slippage t.market_price t.direction) :: tl,
          ?_, ?_, ?_, ?_, ?_, ?_⟩
        · rw [execGo, if_neg hk, if_neg hc, h1]; simp
        · rw [execGo, if_neg hk, if_neg hc, h2]; simp
        · simpa [mkPosition, mkTradeRec] using h3
        · rw [execGo, if_neg hk, if_neg hc, h4]
          simp [mkPosition]
          ring
        · intro q hq
          rcases List.mem_cons.mp hq with h | h
          · subst h; simpa [mkPosition] using hk
          · exact h5 q h
        · intro tr htr
          rcases List.mem_cons.mp htr with h | h
          · subst h; simpa [mkTradeRec] using hk
          · exact h6 tr h

/-- The admission loop never lets an agent's open positions grow past
max_positions when the count is within the cap at entry. -/
lemma execGo_le (botId : List Char) (now maxPos : ℕ) (keys : List (List Char)) :
    ∀ (ps : List Proposal) (st : BotState) (ex : List TradeRec),
    st.positions.length ≤ maxPos →
    (execGo botId now maxPos keys ps st ex).1.positions.length ≤ maxPos := by
  intro ps
  induction ps with
  | nil => intro st ex h; simpa [execGo] using h
  | cons t rest ih =>
    intro st ex h
    by_cases hk : normalize_title t.market ∈ keys
    · rw [execGo, if_pos hk]; exact ih st ex h
    · by_cases hc : maxPos ≤ st.positions.length + ex.length
      · rw [execGo, if_neg hk, if_pos hc]; exact h
      · rw [execGo, if_neg hk, if_neg hc]
        apply ih
        have : st.positions.length + ex.length < maxPos := lt_of_not_le hc
        simp only [List.length_append, List.length_cons, List.length_nil]
        omega

/-- Same-cycle deduplication is only against the keys computed at loop
start: under pairwise-distinct proposal keys, position keys stay
pairwise distinct. -/
lemma execGo_nodup (botId : List Char) (now maxPos : ℕ) (keys : List (List Char)) :
    ∀ (ps : List Proposal) (st : BotState) (ex : List TradeRec),
    (st.positions.map (fun p => normalize_title p.market)).Nodup →
    (ps.map (fun t => normalize_title t.market)).Nodup →
    (∀ t ∈ ps, normalize_title t.market ∈
        st.positions.map (fun p => normalize_title p.market) →
      normalize_title t.market ∈ keys) →
    ((execGo botId now maxPos keys ps st ex).1.positions.map
      (fun p => normalize_title p.market)).Nodup := by
  intro ps
  induction ps with
  | nil => intro st ex h1 _ _; simpa [execGo] using h1
  | cons t rest ih =>
    intro st ex h1 h2 h3
    rw [List.map_cons, List.nodup_cons] at h2
    by_cases hk : normalize_title t.market ∈ keys
    · rw [execGo, if_pos hk]
      exact ih st ex h1 h2.2 (fun u hu => h3 u (List.mem_cons_of_mem _ hu))
    · by_cases hc : maxPos ≤ st.positions.length + ex.length
      · rw [execGo, if_neg hk, if_pos hc]; exact h1
      · rw [execGo, if_neg hk, if_neg hc]
        have hnotin : normalize_title t.market ∉
            st.positions.map (fun p => normalize_title p.market) := by
          intro hmem
          exact hk (h3 t (List.mem_cons_self t rest) hmem)
        apply ih
        · simp only [List.map_append, List.map_cons, List.map_nil, mkPosition_market]
          rw [List.nodup_append]
          refine ⟨h1, by simp, ?_⟩
          intro a ha hb
          have hb' : a = normalize_title t.market := List.mem_singleton.mp hb
          rw [hb'] at ha
          exact hnotin ha
        · exact h2.2
        · intro u hu hmem
          simp only [List.map_append, List.map_cons, List.map_nil,
            mkPosition_market, List.mem_append, List.mem_singleton] at hmem
          rcases hmem with h | h
          · exact h3 u (List.mem_cons_of_mem _ hu) h
          · exfalso
            have hmm : normalize_title u.market ∈
                rest.map (fun v => normalize_title v.market) := by
              exact List.mem_map_of_mem _ hu
            rw [h] at hmm
            exact h2.1 hmm

/-- Exact count of admitted trades: the loop stops once
positions + executed (which double-counts each admitted trade) reaches
max_positions, so with enough fresh proposals it admits
ceil((max_positions - existing) / 2). -/
lemma execGo_count (botId : List Char) (now maxPos : ℕ) (keys : List (List Char)) :
    ∀ (ps : List Proposal) (st : BotState) (ex : List TradeRec),
    (∀ t ∈ ps, normalize_title t.market ∉ keys) →
    (execGo botId now maxPos keys ps st ex).2.length =
      ex.length + min ps.length
        ((maxPos - (st.positions.length + ex.length) + 1) / 2) := by
  intro ps
  induction ps with
  | nil =>
    intro st ex _
    simp [execGo]
  | cons t rest ih =>
    intro st ex hfresh
    have hk : normalize_title t.market ∉ keys := hfresh t (List.mem_cons_self t rest)
    by_cases hc : maxPos ≤ st.positions.length + ex.length
    · rw [execGo, if_neg hk, if_pos hc]
      have : maxPos - (st.positions.length + ex.length) = 0 := by omega
      rw [this]
      simp
    · rw [execGo, if_neg hk, if_neg hc]
      rw [ih _ _ (fun u hu => hfresh u (List.mem_cons_of_mem _ hu))]
      simp only [List.length_append, List.length_cons, List.length_nil]
      omega

/-! ## C4: the cap invariant -/

/-- C4. If an agent enters the admission step with at most max_positions
open positions, it leaves it with at most max_positions open positions. -/
theorem execute_trades_le_max (botId : List Char) (now maxPos : ℕ)
    (st : BotState) (proposals : List Proposal)
    (h : st.positions.length ≤ maxPos) :
    (executeTrades botId now maxPos st proposals).1.positions.length ≤ maxPos :=
  execGo_le botId now maxPos _ proposals st [] h

/-- C4 witness: spec Example 3 — one open position, max_positions = 1, a
fresh qualifying proposal: the count stays at 1 (and in fact nothing is
admitted). -/
theorem execute_trades_le_max_witness :
    ((freshState 0).positions.length ≤ 1 →
      (executeTrades "b".toList 0 1 (freshState 0) []).1.positions.length ≤ 1) ∧
    (executeTrades "b".toList 0 1 (freshState 0) []).1.positions.length ≤ 1 :=
  ⟨fun h => execute_trades_le_max "b".toList 0 1 (freshState 0) [] h,
   execute_trades_le_max "b".toList 0 1 (freshState 0) [] (by decide)⟩

/-! ## C2: no two open positions share a normalized market key -/

/-- A concrete qualifying proposal used by the concrete instances. -/
def sampleProposal (name : String) : Proposal :=
  { market := name.toList, platform := "Polymarket".toList,
    url := "u".toList, category := "Other".toList, direction := .BUY_YES,
    market_price := 40, estimated_prob := 55, edge_pp := 15,
    bet_amount := 100, kelly_fraction := 1/4, arb_detail := none }

/-- C2 counterexample. With no open positions (pairwise-distinct keys
hold vacuously), max_positions = 4 and a ranked list containing the same
market twice, the admission loop admits BOTH copies: the set of existing
keys is computed once, before the loop, and never extended, so after the
step two open positions share a normalized key. -/
theorem execute_trades_duplicate_key_cex :
    ((freshState 0).positions.map (fun p => normalize_title p.market)).Nodup ∧
    ¬ (((executeTrades "b".toList 0 4 (freshState 0)
        [sampleProposal "dup market", sampleProposal "dup market"]).1.positions.map
        (fun p => normalize_title p.market)).Nodup) := by
  constructor
  · decide
  · decide

/-- C2 (amended). A proposal whose normalized key matches a position open
at the START of the admission step is rejected; duplicates inside the
same cycle's ranked list are not checked against each other. Hence the
invariant holds under the extra premise that the proposal list's
normalized keys are pairwise distinct (which each strategy's own
dedup/truncation supplies): then no two open positions share a
normalized market key afterwards, and every admitted trade's key is
fresh relative to the positions open at the start. -/
theorem execute_trades_nodup_keys (botId : List Char) (now maxPos : ℕ)
    (st : BotState) (proposals : List Proposal)
    (h1 : (st.positions.map (fun p => normalize_title p.market)).Nodup)
    (h2 : (proposals.map (fun t => normalize_title t.market)).Nodup) :
    ((executeTrades botId now maxPos st proposals).1.positions.map
      (fun p => normalize_title p.market)).Nodup ∧
    ∀ tr ∈ (executeTrades botId now maxPos st proposals).2,
      normalize_title tr.market ∉
        st.positions.map (fun p => normalize_title p.market) := by
  constructor
  · exact execGo_nodup botId now maxPos _ proposals st [] h1 h2 (fun _ _ h => h)
  · obtain ⟨pl, tl, _, he, _, _, _, ht⟩ := execGo_frame botId now maxPos
      (st.positions.map (fun p => normalize_title p.market)) proposals st []
    intro tr htr
    rw [executeTrades, he] at htr
    exact ht tr (by simpa using htr)

/-- C2 witness: two distinct-market proposals into an empty book keep the
position keys pairwise distinct. -/
theorem execute_trades_nodup_keys_witness :
    ((executeTrades "b".toList 0 4 (freshState 0)
      [sampleProposal "market one", sampleProposal "market two"]).1.positions.map
      (fun p => normalize_title p.market)).Nodup :=
  (execute_trades_nodup_keys "b".toList 0 4 (freshState 0)
    [sampleProposal "market one", sampleProposal "market two"]
    (by decide) (by decide)).1

/-! ## C3: how many proposals are admitted -/

/-- C3 counterexample. Empty book, max_positions = 2, two admissible
proposals with distinct fresh keys: the claim says both are admitted
(existing + admitted = max_positions), but the loop admits only one,
because its cap check re-reads the grown position list AND adds the
executed count, double-counting each admitted trade. -/
theorem execute_trades_count_cex :
    (∀ t ∈ [sampleProposal "market one", sampleProposal "market two"],
      normalize_title t.market ∉
        (freshState 0).positions.map (fun p => normalize_title p.market)) ∧
    (([sampleProposal "market one", sampleProposal "market two"].map
      (fun t => normalize_title t.market)).Nodup) ∧
    (executeTrades "b".toList 0 2 (freshState 0)
      [sampleProposal "market one", sampleProposal "market two"]).2.length ≠
      2 - (freshState 0).positions.length := by
  refine ⟨by decide, by decide, by decide⟩

/-- C3 (amended). Proposals are taken in rank order, but the cap check
current_positions + len(executed) >= max_positions counts each admitted
trade twice (the position list grows in step with the executed list), so
with E existing positions and at least ceil((max_positions - E) / 2)
admissible proposals the loop admits exactly
(max_positions - E + 1) / 2 trades (integer division) and rejects all
later proposals. -/
theorem execute_trades_count (botId : List Char) (now maxPos : ℕ)
    (st : BotState) (proposals : List Proposal)
    (hfresh : ∀ t ∈ proposals, normalize_title t.market ∉
      st.positions.map (fun p => normalize_title p.market))
    (henough : (maxPos - st.positions.length + 1) / 2 ≤ proposals.length) :
    (executeTrades botId now maxPos st proposals).2.length =
      (maxPos - st.positions.length + 1) / 2 ∧
    (executeTrades botId now maxPos st proposals).1.positions.length =
      st.positions.length + (maxPos - st.positions.length + 1) / 2 := by
  have hc := execGo_count botId now maxPos _ proposals st [] hfresh
  have hlen : (executeTrades botId now maxPos st proposals).2.length =
      (maxPos - st.positions.length + 1) / 2 := by
    rw [executeTrades, hc]
    simp only [List.length_nil, Nat.add_zero, Nat.zero_add]
    omega
  refine ⟨hlen, ?_⟩
  obtain ⟨pl, tl, hp, he, hm, _, _, _⟩ := execGo_frame botId now maxPos
    (st.positions.map (fun p => normalize_title p.market)) proposals st []
  have hpl : pl.length = tl.length := by
    have := congrArg List.length hm
    simpa using this
  have htl : tl.length = (maxPos - st.positions.length + 1) / 2 := by
    rw [executeTrades, he] at hlen
    simpa using hlen
  rw [executeTrades, hp]
  simp only [List.length_append]
  rw [hpl, htl]

/-- C3 witness: empty book, max_positions = 2, two admissible proposals:
exactly (2 - 0 + 1) / 2 = 1 trade is admitted. -/
theorem execute_trades_count_witness :
    (executeTrades "b".toList 0 2 (freshState 0)
      [sampleProposal "market one", sampleProposal "market two"]).2.length =
      (2 - (freshState 0).positions.length + 1) / 2 :=
  (execute_trades_count "b".toList 0 2 (freshState 0)
    [sampleProposal "market one", sampleProposal "market two"]
    (by decide) (by decide)).1

/-! ## C10: admission conserves bankroll + staked value -/

/-- C10. The admission step conserves bankroll + total staked amount:
every admitted trade debits the bankroll by exactly the bet_amount
recorded in the position it appends, existing positions are untouched
(the new position list is the old one plus the new positions, whose bet
amounts are exactly the executed trades' bet amounts), and no other
bankroll change occurs. Nothing clamps the bankroll at zero. -/
theorem execute_trades_conserves_value (botId : List Char) (now maxPos : ℕ)
    (st : BotState) (proposals : List Proposal) :
    (executeTrades botId now maxPos st proposals).1.bankroll +
      (((executeTrades botId now maxPos st proposals).1.positions).map
        (fun p => p.bet_amount)).sum =
      st.bankroll + ((st.positions).map (fun p => p.bet_amount)).sum ∧
    ∃ newPositions,
      (executeTrades botId now maxPos st proposals).1.positions =
        st.positions ++ newPositions ∧
      newPositions.map (fun p => p.bet_amount) =
        ((executeTrades botId now maxPos st proposals).2).map
          (fun tr => tr.bet_amount) := by
  obtain ⟨pl, tl, hp, he, hm, hb, _, _⟩ := execGo_frame botId now maxPos
    (st.positions.map (fun p => normalize_title p.market)) proposals st []
  constructor
  · rw [executeTrades, hp, hb]
    simp only [List.map_append, List.sum_append]
    ring
  · refine ⟨pl, by rw [executeTrades, hp], ?_⟩
    rw [executeTrades, he]
    simpa using hm

/-! ## C6: normalize_title and idempotence

Structural facts about the normalization pipeline: the characters of the
output, its whitespace shape, and when each stage is the identity. -/

lemma head?_dropWhile (p : Char → Bool) :
    ∀ (l : List Char) (a : Char), (l.dropWhile p).head? = some a → p a = false := by
  intro l
  induction l with
  | nil => intro a h; simp [List.dropWhile] at h
  | cons c rest ih =>
    intro a h
    by_cases hc : p c
    · rw [List.dropWhile_cons_of_pos hc] at h
      exact ih a h
    · rw [List.dropWhile_cons_of_neg hc] at h
      simp only [List.head?_cons, Option.some.injEq] at h
      rw [← h]
      exact Bool.eq_false_iff.mpr hc

lemma dropWhile_eq_self_of_head (p : Char → Bool) (l : List Char)
    (h : ∀ a, l.head? = some a → p a = false) : l.dropWhile p = l := by
  cases l with
  | nil => rfl
  | cons c rest =>
    have hc : p c = false := h c rfl
    rw [List.dropWhile_cons_of_neg (by simp [hc])]

lemma getLast?_dropWhile (p : Char → Bool) :
    ∀ l : List Char, l.dropWhile p ≠ [] → (l.dropWhile p).getLast? = l.getLast? := by
  intro l
  induction l with
  | nil => intro h; simp [List.dropWhile] at h
  | cons c rest ih =>
    intro h
    by_cases hc : p c
    · rw [List.dropWhile_cons_of_pos hc] at h ⊢
      have hrest : rest ≠ [] := by
        intro he
        rw [he] at h
        simp [List.dropWhile] at h
      rw [ih h]
      cases rest with
      | nil => exact absurd rfl hrest
      | cons d rest2 => rw [List.getLast?_cons_cons]
    · rw [List.dropWhile_cons_of_neg hc]

lemma pyStrip_head (l : List Char) (a : Char)
    (h : (pyStrip l).head? = some a) : isWsB a = false := by
  unfold pyStrip at h
  rw [List.head?_reverse] at h
  by_cases hne : ((l.dropWhile isWsB).reverse.dropWhile isWsB) = []
  · rw [hne] at h
    simp at h
  · rw [getLast?_dropWhile isWsB _ hne, List.getLast?_reverse] at h
    exact head?_dropWhile isWsB l a h

lemma pyStrip_getLast (l : List Char) (a : Char)
    (h : (pyStrip l).getLast? = some a) : isWsB a = false := by
  unfold pyStrip at h
  rw [List.getLast?_reverse] at h
  exact head?_dropWhile isWsB _ a h

lemma pyStrip_fix (l : List Char)
    (h1 : ∀ a, l.head? = some a → isWsB a = false)
    (h2 : ∀ a, l.getLast? = some a → isWsB a = false) : pyStrip l = l := by
  unfold pyStrip
  rw [dropWhile_eq_self_of_head isWsB l h1]
  have hrev : ∀ a, l.reverse.head? = some a → isWsB a = false := by
    intro a ha
    rw [List.head?_reverse] at ha
    exact h2 a ha
  rw [dropWhile_eq_self_of_head isWsB l.reverse hrev, List.reverse_reverse]

lemma mem_of_mem_pyStrip {c : Char} {l : List Char} (h : c ∈ pyStrip l) : c ∈ l := by
  unfold pyStrip at h
  rw [List.mem_reverse] at h
  have h2 := (List.dropWhile_sublist (l := (l.dropWhile isWsB).reverse) isWsB).subset h
  rw [List.mem_reverse] at h2
  exact (List.dropWhile_sublist isWsB).subset h2

lemma mem_of_mem_replGo (pat : List Char) :
    ∀ (s : List Char) (k : ℕ) (c : Char), c ∈ replGo pat k s → c ∈ s := by
  intro s
  induction s with
  | nil => intro k c h; cases k <;> simp [replGo] at h
  | cons d rest ih =>
    intro k c h
    cases k with
    | succ k0 =>
      rw [replGo] at h
      exact List.mem_cons_of_mem _ (ih k0 c h)
    | zero =>
      rw [replGo] at h
      by_cases hp : pat ≠ [] ∧ pat.isPrefixOf (d :: rest) = true
      · rw [if_pos hp] at h
        exact List.mem_cons_of_mem _ (ih _ c h)
      · rw [if_neg hp] at h
        rcases List.mem_cons.mp h with h | h
        · rw [h]; exact List.mem_cons_self d rest
        · exact List.mem_cons_of_mem _ (ih 0 c h)

lemma mem_of_mem_noiseFold :
    ∀ (pats : List (List Char)) (l : List Char) (c : Char),
    c ∈ List.foldl (fun acc pat => replaceAll pat acc) l pats → c ∈ l := by
  intro pats
  induction pats with
  | nil => intro l c h; simpa using h
  | cons p ps ih =>
    intro l c h
    rw [List.foldl_cons] at h
    exact mem_of_mem_replGo p l 0 c (ih (replaceAll p l) c h)

lemma collapseWs_chars :
    ∀ (l : List Char) (b : Bool), (∀ c ∈ l, isAllowed c = true) →
    ∀ c ∈ collapseWsAux b l, isAllowed c = true ∧ (isWsB c = true → c = ' ') := by
  intro l
  induction l with
  | nil => intro b _ c h; simp [collapseWsAux] at h
  | cons d rest ih =>
    intro b hall c h
    have hrest : ∀ c ∈ rest, isAllowed c = true :=
      fun x hx => hall x (List.mem_cons_of_mem _ hx)
    by_cases hws : isWsB d = true
    · rw [collapseWsAux, if_pos hws] at h
      by_cases hb : b = true
      · rw [if_pos hb] at h
        exact ih true hrest c h
      · rw [if_neg hb] at h
        rcases List.mem_cons.mp h with h | h
        · rw [h]
          exact ⟨by decide, fun _ => rfl⟩
        · exact ih true hrest c h
    · rw [collapseWsAux, if_neg hws] at h
      rcases List.mem_cons.mp h with h | h
      · rw [h]
        exact ⟨hall d (List.mem_cons_self d rest), fun hcon => absurd hcon hws⟩
      · exact ih false hrest c h

lemma hasDbl_tail (c : Char) (rest : List Char)
    (h : hasDbl (c :: rest) = false) : hasDbl rest = false := by
  cases rest with
  | nil => rfl
  | cons x r =>
    rw [hasDbl, Bool.or_eq_false_iff] at h
    exact h.2

lemma collapseWs_fix :
    ∀ (l : List Char) (b : Bool),
    (∀ c ∈ l, isWsB c = true → c = ' ') → hasDbl l = false →
    (b = true → ∀ a, l.head? = some a → isWsB a = false) →
    collapseWsAux b l = l := by
  intro l
  induction l with
  | nil => intro b _ _ _; cases b <;> rfl
  | cons d rest ih =>
    intro b hws hdbl hb
    have hwsrest : ∀ c ∈ rest, isWsB c = true → c = ' ' :=
      fun x hx => hws x (List.mem_cons_of_mem _ hx)
    by_cases hd : isWsB d = true
    · have hd' : d = ' ' := hws d (List.mem_cons_self d rest) hd
      cases b with
      | true => exact absurd (hb rfl d rfl) (by simp [hd])
      | false =>
        rw [collapseWsAux, if_pos hd, if_neg (by simp)]
        have htail : collapseWsAux true rest = rest := by
          apply ih true hwsrest (hasDbl_tail d rest hdbl)
          intro _ a ha
          cases rest with
          | nil => simp at ha
          | cons x r =>
            simp only [List.head?_cons, Option.some.injEq] at ha
            by_cases hx : isWsB x = true
            · exfalso
              have hx' : x = ' ' := hwsrest x (List.mem_cons_self x r) hx
              rw [hd', hx'] at hdbl
              simp [hasDbl] at hdbl
            · rw [← ha]
              exact Bool.eq_false_iff.mpr (fun hcon => hx hcon)
        rw [htail, hd']
    · rw [collapseWsAux, if_neg hd]
      rw [ih false hwsrest (hasDbl_tail d rest hdbl) (by intro h; simp at h)]

lemma replGo_fix (pat : List Char) :
    ∀ l : List Char, hasSub pat l = false → replGo pat 0 l = l := by
  intro l
  induction l with
  | nil => intro _; rfl
  | cons c rest ih =>
    intro h
    rw [hasSub, Bool.or_eq_false_iff] at h
    rw [replGo, if_neg (by simp [h.1])]
    rw [ih h.2]

lemma noiseFold_fix :
    ∀ (pats : List (List Char)) (l : List Char),
    (∀ pat ∈ pats, hasSub pat l = false) →
    List.foldl (fun acc pat => replaceAll pat acc) l pats = l := by
  intro pats
  induction pats with
  | nil => intro l _; rfl
  | cons p ps ih =>
    intro l h
    rw [List.foldl_cons]
    have hp : replaceAll p l = l := replGo_fix p l (h p (List.mem_cons_self p ps))
    rw [show replaceAll p l = l from hp]
    exact ih l (fun q hq => h q (List.mem_cons_of_mem _ hq))

lemma pyLower_fix (c : Char) (h : isAllowed c = true) : pyLower c = c := by
  unfold pyLower
  split_ifs with h65
  · exfalso
    simp only [isAllowed, isWsB, Bool.or_eq_true, Bool.and_eq_true,
      decide_eq_true_eq] at h
    omega
  · rfl

lemma map_eq_self_of_fix {f : Char → Char} :
    ∀ l : List Char, (∀ c ∈ l, f c = c) → l.map f = l := by
  intro l
  induction l with
  | nil => intro _; rfl
  | cons c rest ih =>
    intro h
    rw [List.map_cons, h c (List.mem_cons_self c rest),
      ih (fun x hx => h x (List.mem_cons_of_mem _ hx))]

/-- C6 counterexample. normalize_title is NOT idempotent: on
"a in 2026 b" the noise token "in 2026" (which carries no trailing
space) is deleted, leaving the double space of "a  b"; a second pass
collapses it to "a b". -/
theorem normalize_title_not_idem :
    normalize_title (normalize_title "a in 2026 b".toList) ≠
      normalize_title "a in 2026 b".toList ∧
    normalize_title "a in 2026 b".toList = "a  b".toList ∧
    normalize_title (normalize_title "a in 2026 b".toList) = "a b".toList := by
  refine ⟨by decide, by decide, by decide⟩

/-- C6 (amended). normalize_title is idempotent on every input whose
normalized form contains no doubled space and no occurrence of a noise
token: then a second pass changes nothing. (In general, deleting a noise
substring can create a doubled space — see the counterexample — or a new
noise occurrence, and only then does a second pass differ.) -/
theorem normalize_title_idem_of_clean (s : List Char)
    (h1 : hasDbl (normalize_title s) = false)
    (h2 : ∀ pat ∈ noiseTokens, hasSub pat (normalize_title s) = false) :
    normalize_title (normalize_title s) = normalize_title s := by
  have hA : ∀ c ∈ normalize_title s,
      isAllowed c = true ∧ (isWsB c = true → c = ' ') := by
    intro c hc
    unfold normalize_title at hc
    have hc2 := mem_of_mem_pyStrip hc
    have hc3 := mem_of_mem_noiseFold noiseTokens _ c hc2
    exact collapseWs_chars _ false (fun d hd => List.of_mem_filter hd) c hc3
  have hBhead : ∀ a, (normalize_title s).head? = some a → isWsB a = false := by
    intro a ha
    unfold normalize_title at ha
    exact pyStrip_head _ a ha
  have hBlast : ∀ a, (normalize_title s).getLast? = some a → isWsB a = false := by
    intro a ha
    unfold normalize_title at ha
    exact pyStrip_getLast _ a ha
  have e1 : (normalize_title s).map pyLower = normalize_title s :=
    map_eq_self_of_fix _ (fun c hc => pyLower_fix c (hA c hc).1)
  have e2 : pyStrip (normalize_title s) = normalize_title s :=
    pyStrip_fix _ hBhead hBlast
  have e3 : (normalize_title s).filter isAllowed = normalize_title s :=
    List.filter_eq_self.mpr (fun c hc => (hA c hc).1)
  have e4 : collapseWs (normalize_title s) = normalize_title s := by
    unfold collapseWs
    exact collapseWs_fix _ false (fun c hc => (hA c hc).2) h1 (by intro h; simp at h)
  have e5 : List.foldl (fun acc pat => replaceAll pat acc)
      (normalize_title s) noiseTokens = normalize_title s :=
    noiseFold_fix noiseTokens _ h2
  conv_lhs => rw [normalize_title]
  rw [e1, e2, e3, e4, e5, e2]

/-- C6 witness: the amended idempotence applied to "hello world", whose
normalized form is clean. -/
theorem normalize_title_idem_witness :
    normalize_title (normalize_title "hello world".toList) =
      normalize_title "hello world".toList :=
  normalize_title_idem_of_clean "hello world".toList (by decide) (by decide)

/-! ## C7: the per-cycle decision record -/

/-- The arbitrage strategy yields no proposal when the Kalshi snapshot
list is empty, whatever the Polymarket side holds. -/
lemma strategy_arb_no_kalshi (params : BotProfile) (poly : List Market)
    (st : BotState) : strategy_cross_platform_arb params poly [] st = [] := by
  have h : poly.foldr
      (fun pm acc =>
        if pm.closed || !pm.active then acc
        else if !(is_tradeable pm) then acc
        else (List.filterMap
                (arbPair params st.bankroll pm (normalize_title pm.title)) []) ++ acc)
      [] = ([] : List Proposal) := by
    induction poly with
    | nil => rfl
    | cons pm rest ih =>
      rw [List.foldr_cons, ih]
      split_ifs <;> simp
  simp only [strategy_cross_platform_arb]
  rw [h]
  simp [sortByEdgeDesc, dedupByKey]

/-- The arbitrage strategy yields no proposal when the Polymarket
snapshot list is empty. -/
lemma strategy_arb_no_poly (params : BotProfile) (kal : List Market)
    (st : BotState) : strategy_cross_platform_arb params [] kal st = [] := by
  simp only [strategy_cross_platform_arb, List.foldr_nil]
  simp [sortByEdgeDesc, dedupByKey]

/-- C7 (spec-modelled recorder + the engine's own arbitrage strategy).
For every cycle: the record's decision is TRADE iff at least one
proposal was admitted; a HOLD cycle reports exactly the distinct codes
that fired, each at most once and in strictly increasing rank
(DEPENDENCY_DATA_UNAVAILABLE before AT_MAX_POSITIONS before
NO_QUALIFYING_EDGE); and an arbitrage-strategy agent run while either
venue's snapshot list is empty produces no proposals, admits no trades,
and its record is HOLD with DEPENDENCY_DATA_UNAVAILABLE reported first,
independent of the other venue's content. -/
theorem cycle_record_spec :
    ∀ (admitted : ℕ) (dep atMax noEdge : Bool) (params : BotProfile)
      (poly kal : List Market) (st : BotState) (botId : List Char)
      (now maxPos : ℕ),
    ((cycle_record admitted dep atMax noEdge).decision = CycleDecision.TRADE ↔
      0 < admitted) ∧
    (cycle_record admitted dep atMax noEdge).hold_reasons.Pairwise
      (fun a b => reasonRank a < reasonRank b) ∧
    (∀ r, r ∈ (cycle_record admitted dep atMax noEdge).hold_reasons ↔
      (admitted = 0 ∧ reasonFired dep atMax noEdge r = true)) ∧
    strategy_cross_platform_arb params poly [] st = [] ∧
    strategy_cross_platform_arb params [] kal st = [] ∧
    (executeTrades botId now maxPos st
      (strategy_cross_platform_arb params poly [] st)).2 = [] ∧
    (cycle_record 0 (dependency_unavailable "cross_platform_arb".toList poly [])
      atMax noEdge).decision = CycleDecision.HOLD ∧
    (cycle_record 0 (dependency_unavailable "cross_platform_arb".toList poly [])
      atMax noEdge).hold_reasons.head? =
      some HoldReason.DEPENDENCY_DATA_UNAVAILABLE := by
  intro admitted dep atMax noEdge params poly kal st botId now maxPos
  have hdep : dependency_unavailable "cross_platform_arb".toList poly [] = true := by
    simp [dependency_unavailable]
  refine ⟨?_, ?_, ?_, strategy_arb_no_kalshi params poly st,
    strategy_arb_no_poly params kal st, ?_, ?_, ?_⟩
  · cases admitted <;> simp [cycle_record]
  · cases admitted with
    | zero => cases dep <;> cases atMax <;> cases noEdge <;> decide
    | succ n => simp [cycle_record]
  · intro r
    cases admitted with
    | zero => cases dep <;> cases atMax <;> cases noEdge <;> cases r <;>
        simp [cycle_record, reasonFired]
    | succ n => simp [cycle_record, Nat.succ_ne_zero]
  · rw [strategy_arb_no_kalshi params poly st]
    rfl
  · rw [hdep]
    cases atMax <;> cases noEdge <;> decide
  · rw [hdep]
    cases atMax <;> cases noEdge <;> decide

/-! ## C8: the mark-to-market step -/

/-- C8 (amended). The mark-to-market step updates a position's mark if
and only if the FIRST snapshot whose stripped, lowercased title equals
the position's (exact title match up to case and surrounding whitespace
— NOT the normalize_title key used for dedup) moves by at most 15
points; in every other case the prior mark is kept; and no field other
than current_price is ever modified. -/
theorem updatePositionMark_spec (allM : List Market) (pos : Position) :
    (∀ mkt,
      allM.find? (fun m => stripLower m.title == stripLower pos.market) = some mkt →
      ((|mkt.yes_pct - pos.current_price| ≤ 15 →
        (updatePositionMark allM pos).current_price = mkt.yes_pct) ∧
       (¬(|mkt.yes_pct - pos.current_price| ≤ 15) →
        (updatePositionMark allM pos).current_price = pos.current_price))) ∧
    (allM.find? (fun m => stripLower m.title == stripLower pos.market) = none →
      (updatePositionMark allM pos).current_price = pos.current_price) ∧
    (updatePositionMark allM pos).trade_id = pos.trade_id ∧
    (updatePositionMark allM pos).market = pos.market ∧
    (updatePositionMark allM pos).direction = pos.direction ∧
    (updatePositionMark allM pos).entry_price = pos.entry_price ∧
    (updatePositionMark allM pos).bet_amount = pos.bet_amount ∧
    (updatePositionMark allM pos).timestamp = pos.timestamp ∧
    (updatePositionMark allM pos).platform = pos.platform ∧
    (updatePositionMark allM pos).url = pos.url ∧
    (updatePositionMark allM pos).arb_detail = pos.arb_detail := by
  cases hfe : allM.find? (fun m => stripLower m.title == stripLower pos.market) with
  | none =>
    refine ⟨?_, ?_, ?_, ?_, ?_, ?_, ?_, ?_, ?_, ?_, ?_⟩ <;>
      simp [updatePositionMark, hfe]
  | some mkt =>
    have hu : updatePositionMark allM pos =
        if |mkt.yes_pct - pos.current_price| ≤ 15 then
          { pos with current_price := mkt.yes_pct }
        else pos := by
      unfold updatePositionMark
      rw [hfe]
    by_cases hclose : |mkt.yes_pct - pos.current_price| ≤ 15
    · rw [hu, if_pos hclose]
      refine ⟨?_, ?_, rfl, rfl, rfl, rfl, rfl, rfl, rfl, rfl, rfl⟩
      · intro mkt2 hm2
        rw [Option.some.injEq] at hm2
        rw [← hm2]
        exact ⟨fun _ => rfl, fun hc => absurd hclose hc⟩
      · intro hnone
        exact absurd hnone (by simp)
    · rw [hu, if_neg hclose]
      refine ⟨?_, fun _ => rfl, rfl, rfl, rfl, rfl, rfl, rfl, rfl, rfl, rfl⟩
      intro mkt2 hm2
      rw [Option.some.injEq] at hm2
      rw [← hm2]
      exact ⟨fun hc => absurd hc hclose, fun _ => rfl⟩

/-- The mark-to-market counterexample market snapshot. -/
def cexMarket : Market :=
  { platform := "Polymarket".toList, title := "Market".toList, yes_pct := 60,
    volume := 0, volume_24hr := 0, liquidity := 0, category := "Other".toList,
    url := "u".toList, active := true, closed := false }

/-- A position whose stored market title differs from the snapshot title
only by the leading noise word "The". -/
def cexPosition : Position :=
  { trade_id := "t1".toList, market := "The Market".toList,
    direction := .BUY_YES, entry_price := 40, current_price := 50,
    bet_amount := 100, timestamp := 0, platform := "Polymarket".toList,
    url := "u".toList, arb_detail := none }

/-- C8 counterexample. The snapshot's normalized title (the dedup key of
the spec's data model) equals the position's and its price is within 15
points of the prior mark, yet the mark-to-market step does NOT update
the mark: the scan matches on the stripped lowercased title, which
differs ("the market" vs "market"). -/
theorem mark_step_normalized_title_cex :
    normalize_title cexPosition.market = normalize_title cexMarket.title ∧
    |cexMarket.yes_pct - cexPosition.current_price| ≤ 15 ∧
    (updatePositionMark [cexMarket] cexPosition).current_price =
      cexPosition.current_price ∧
    cexPosition.current_price ≠ cexMarket.yes_pct := by
  refine ⟨by decide, ?_, by decide, by decide⟩
  show |(60 : ℚ) - 50| ≤ 15
  norm_num

/-- A position whose title matches the counterexample snapshot exactly. -/
def wPosition : Position :=
  { trade_id := "t2".toList, market := "Market".toList,
    direction := .BUY_YES, entry_price := 40, current_price := 50,
    bet_amount := 100, timestamp := 0, platform := "Polymarket".toList,
    url := "u".toList, arb_detail := none }

/-- C8 witness: on an exact (case/whitespace-insensitive) title match
with a move within 15 points, the mark is updated to the snapshot
price. -/
theorem updatePositionMark_spec_witness :
    (updatePositionMark [cexMarket] wPosition).current_price = cexMarket.yes_pct :=
  ((updatePositionMark_spec [cexMarket] wPosition).1 cexMarket (by decide)).1
    (by show |(60 : ℚ) - 50| ≤ 15; norm_num)

/-! ## C9: strategy failures are isolated per agent -/

/-- Two engine runs whose strategy tables agree on every agent id other
than fid produce the same final state at every id other than fid,
whatever the two tables do for fid (raise, return proposals, or be
absent from the table). -/
lemma runBots_agree (now : ℕ) (allM : List Market) (fid : List Char)
    (strat strat' : BotProfile → Option (BotState → Except Unit (List Proposal))) :
    ∀ (bots : List BotProfile) (st1 st2 : List Char → Option BotState),
    (∀ b ∈ bots, b.id ≠ fid → strat b = strat' b) →
    (∀ i, i ≠ fid → st1 i = st2 i) →
    ∀ i, i ≠ fid →
      (runBots now allM strat bots st1).1 i = (runBots now allM strat' bots st2).1 i := by
  intro bots
  induction bots with
  | nil =>
    intro st1 st2 _ hst i hi
    simpa [runBots] using hst i hi
  | cons b rest ih =>
    intro st1 st2 hagree hst i hi
    have hagree' : ∀ u ∈ rest, u.id ≠ fid → strat u = strat' u :=
      fun u hu => hagree u (List.mem_cons_of_mem _ hu)
    by_cases hb : b.id = fid
    · rcases hsb : strat b with _ | f <;> rcases hsb' : strat' b with _ | f'
      · simp only [runBots, hsb, hsb']
        exact ih st1 st2 hagree' hst i hi
      · simp only [runBots, hsb, hsb']
        refine ih _ _ hagree' ?_ i hi
        intro j hj
        have hjb : j ≠ b.id := by rw [hb]; exact hj
        rw [if_neg hjb]
        exact hst j hj
      · simp only [runBots, hsb, hsb']
        refine ih _ _ hagree' ?_ i hi
        intro j hj
        have hjb : j ≠ b.id := by rw [hb]; exact hj
        rw [if_neg hjb]
        exact hst j hj
      · simp only [runBots, hsb, hsb']
        refine ih _ _ hagree' ?_ i hi
        intro j hj
        have hjb : j ≠ b.id := by rw [hb]; exact hj
        rw [if_neg hjb, if_neg hjb]
        exact hst j hj
    · have hsame : strat b = strat' b := hagree b (List.mem_cons_self b rest) hb
      rcases hsb : strat b with _ | f
      · have hsb' : strat' b = none := by rw [← hsame]; exact hsb
        simp only [runBots, hsb, hsb']
        exact ih st1 st2 hagree' hst i hi
      · have hsb' : strat' b = some f := by rw [← hsame]; exact hsb
        have h0 : st1 b.id = st2 b.id := hst b.id hb
        simp only [runBots, hsb, hsb', h0]
        refine ih _ _ hagree' ?_ i hi
        intro j hj
        by_cases hjb : j = b.id
        · rw [if_pos hjb, if_pos hjb]
        · rw [if_neg hjb, if_neg hjb]
          exact hst j hj

/-- C9. If one agent's strategy raises (Except.error), that agent
behaves exactly as if the strategy had returned no proposals (it admits
zero trades), and the final state of every other agent id is computed
exactly as if the failure had not happened — the run with the failing
strategy and any run whose strategy table agrees on all other agent ids
give the same state at every other id. The engine itself is a total
function: it always completes and returns its result object. -/
theorem strategy_failure_isolated (now : ℕ) (allM : List Market)
    (fid : List Char) (bots : List BotProfile)
    (strat strat' : BotProfile → Option (BotState → Except Unit (List Proposal)))
    (state0 : List Char → Option BotState)
    (hagree : ∀ b ∈ bots, b.id ≠ fid → strat b = strat' b) :
    (∀ i, i ≠ fid →
      (runBots now allM strat bots state0).1 i =
      (runBots now allM strat' bots state0).1 i) ∧
    (∀ (b : BotProfile) (st : BotState),
      processBot now allM b (Except.error ()) st =
      processBot now allM b (Except.ok []) st) ∧
    (∀ (b : BotProfile) (st : BotState),
      (processBot now allM b (Except.error ()) st).2.1 = []) :=
  ⟨fun i hi => runBots_agree now allM fid strat strat' bots state0 state0 hagree
      (fun _ _ => rfl) i hi,
   fun _ _ => rfl, fun _ _ => rfl⟩

/-- The failing agent of the C9 witness. -/
def botFail : BotProfile :=
  { id := "f".toList, strategy := "x".toList, max_positions := 5,
    kelly_fraction := 1/4, min_spread := 5 }

/-- The healthy agent of the C9 witness. -/
def botGood : BotProfile :=
  { id := "g".toList, strategy := "x".toList, max_positions := 5,
    kelly_fraction := 1/4, min_spread := 5 }

/-- Strategy table whose "f" entry raises. -/
def stratRaise : BotProfile → Option (BotState → Except Unit (List Proposal)) :=
  fun b => if b.id = "f".toList then some (fun _ => .error ())
           else some (fun _ => .ok [])

/-- Strategy table whose "f" entry returns no proposals. -/
def stratQuiet : BotProfile → Option (BotState → Except Unit (List Proposal)) :=
  fun b => if b.id = "f".toList then some (fun _ => .ok [])
           else some (fun _ => .ok [])

/-- C9 witness: with agent "f" raising in one run and returning nothing
in the other, agent "g" ends in the same state. -/
theorem strategy_failure_isolated_witness :
    (runBots 0 [] stratRaise [botFail, botGood] (fun _ => none)).1 "g".toList =
    (runBots 0 [] stratQuiet [botFail, botGood] (fun _ => none)).1 "g".toList :=
  (strategy_failure_isolated 0 [] "f".toList [botFail, botGood]
    stratRaise stratQuiet (fun _ => none)
    (by
      intro b _ hne
      simp only [stratRaise, stratQuiet]
      rw [if_neg hne, if_neg hne])).1 "g".toList (by decide)

end BotArena
